import Mathlib

/-!
Shallow embedding of the "Align Anything" VS Code extension
(`src/extension.js`) and verification of the specified properties.

Modelling conventions:
* a document is a list of lines, each line a list of characters;
* a JavaScript `RegExp` built from the pattern strings used by the
  extension is embedded as a small regex syntax (`Regex`) together with
  `exec`, which returns the index of the leftmost match exactly as
  `RegExp.prototype.exec` does on a regex without the `g`/`y` flags;
* the editor collaborators (`showErrorMessage`, `showInputBox`,
  `editor.edit`) are modelled by explicit data: error values, an
  optional prompt result, and a list of planned insertions applied by
  `applyInsertions`.
-/

namespace AlignAnything

/-- A document: the list of its lines, each line a list of characters. -/
abbrev Doc := List (List Char)

/-- `document.lineAt(i).text` (out-of-range indices give the empty line). -/
def lineTextAt (d : Doc) (i : Nat) : List Char := d.getD i []

/-- Minimal regular-expression syntax: enough to embed the pattern
strings the extension builds with `new RegExp`.  `cls cs` matches one
character drawn from `cs` (a literal character or a character class),
`seq` is concatenation and `alt` is alternation. -/
inductive Regex where
  | eps : Regex
  | cls (cs : List Char) : Regex
  | seq (a b : Regex) : Regex
  | alt (a b : Regex) : Regex
deriving DecidableEq, Repr

/-- All ways the regex can consume a prefix of `cs`: the list of
possible remainders after a match starting at the head of `cs`. -/
def matchPre : Regex → List Char → List (List Char)
  | .eps, cs => [cs]
  | .cls _, [] => []
  | .cls chars, c :: rest => if c ∈ chars then [rest] else []
  | .seq a b, cs => (matchPre a cs).flatMap (matchPre b)
  | .alt a b, cs => matchPre a cs ++ matchPre b cs

/-- The regex matches starting at offset `i` of `cs`. -/
def matchesAt (r : Regex) (cs : List Char) (i : Nat) : Prop :=
  matchPre r (cs.drop i) ≠ []

instance (r : Regex) (cs : List Char) (i : Nat) : Decidable (matchesAt r cs i) :=
  inferInstanceAs (Decidable (matchPre r (cs.drop i) ≠ []))

/-- Helper for `exec`: try to match at the current index, else advance. -/
def execAux (r : Regex) : List Char → Nat → Option Nat
  | [], i => if matchPre r [] = [] then none else some i
  | c :: rest, i =>
      if matchPre r (c :: rest) = [] then execAux r rest (i + 1) else some i

/-- `pattern.exec(text).index` for a regex without the `g`/`y` flags:
the index of the leftmost match, or `none` when there is no match. -/
def exec (r : Regex) (cs : List Char) : Option Nat := execAux r cs 0

/-- A `vscode.Position`: zero-based line and character. -/
structure Pos where
  line : Nat
  character : Nat
deriving DecidableEq, Repr

/-- A `vscode.Selection`, reduced to its `start`/`end` positions
(`end` is a Lean keyword, so the field is called `stop`). -/
structure Selection where
  start : Pos
  stop : Pos
deriving DecidableEq, Repr

/-- `selection.isEmpty`: the selection is a bare cursor. -/
def Selection.isEmpty (s : Selection) : Prop := s.start = s.stop

instance (s : Selection) : Decidable s.isEmpty :=
  inferInstanceAs (Decidable (s.start = s.stop))

/-- A `vscode.Range` (again with `end` renamed to `stop`). -/
structure Range where
  start : Pos
  stop : Pos
deriving DecidableEq, Repr

/-- A recorded match: `new vscode.Position(line, char)` pushed onto
`positions` in `alignCustomPattern`. -/
structure MatchPos where
  line : Nat
  character : Nat
deriving DecidableEq, Repr

/-- A planned edit: insert `count` spaces at `(line, character)`
(`textEditorEdit.insert(position, ' '.repeat(spaceCount))`). -/
structure Insertion where
  line : Nat
  character : Nat
  count : Nat
deriving DecidableEq, Repr

/-- The distinct `showErrorMessage` outcomes of `alignCustomPattern`. -/
inductive AlignError where
  | insufficientLines : AlignError
  | duplicateLineSelection (oneBasedLine : Nat) : AlignError
  | insufficientSelection : AlignError
  | noMatchesFound : AlignError
  | singleMatchFound : AlignError
deriving DecidableEq, Repr

/-- JavaScript `text.substring(a, b)`: indices are clamped to the text
and swapped when `a > b`. -/
def jsSubstring (l : List Char) (a b : Nat) : List Char :=
  if a ≤ b then (l.take b).drop a else (l.take a).drop b

/-- Claim the given line indices one after the other, failing on the
first index already claimed — the `lines.has(line)` checks of
`alignCustomPattern`. -/
def claimLinesAux : List Nat → List Nat → Except AlignError (List Nat)
  | [], claimed => .ok claimed
  | l :: rest, claimed =>
      if l ∈ claimed then .error (.duplicateLineSelection (l + 1))
      else claimLinesAux rest (claimed ++ [l])

/-- The line indices a selection claims: its own line for a cursor,
`start.line .. end.line` for a span (the `for` loop bounds). -/
def selLines (s : Selection) : List Nat :=
  if s.isEmpty then [s.start.line]
  else List.range' s.start.line (s.stop.line + 1 - s.start.line)

/-- All line indices claimed by the selections, in claiming order. -/
def claimedSeq (sels : List Selection) : List Nat := sels.flatMap selLines

/-- The `else` branch of the range-collection loop in
`alignCustomPattern` (lines 176–201 of `extension.js`): one range per
selection, tracking the set of claimed lines. -/
def selectionRangesAux (d : Doc) :
    List Selection → List Nat → List Range → Except AlignError (List Range × List Nat)
  | [], claimed, ranges => .ok (ranges, claimed)
  | sel :: rest, claimed, ranges =>
      if sel.isEmpty then
        if sel.start.line ∈ claimed then
          .error (.duplicateLineSelection (sel.start.line + 1))
        else
          selectionRangesAux d rest (claimed ++ [sel.start.line])
            (ranges ++ [⟨⟨sel.start.line, 0⟩,
              ⟨sel.start.line, (lineTextAt d sel.start.line).length⟩⟩])
      else
        match claimLinesAux
            (List.range' sel.start.line (sel.stop.line + 1 - sel.start.line)) claimed with
        | .error e => .error e
        | .ok claimed' =>
            selectionRangesAux d rest claimed' (ranges ++ [⟨sel.start, sel.stop⟩])

/-- The range each selection contributes in the `else` branch. -/
def selRangesOf (d : Doc) (sels : List Selection) : List Range :=
  sels.map fun sel =>
    if sel.isEmpty then
      ⟨⟨sel.start.line, 0⟩, ⟨sel.start.line, (lineTextAt d sel.start.line).length⟩⟩
    else ⟨sel.start, sel.stop⟩

/-- Range collection for several (or non-empty) selections, including
the final `lines.size < 2` check. -/
def multiSelRanges (d : Doc) (sels : List Selection) : Except AlignError (List Range) :=
  match selectionRangesAux d sels [] [] with
  | .error e => .error e
  | .ok (ranges, claimed) =>
      if claimed.length < 2 then .error .insufficientSelection else .ok ranges

/-- The whole-document range used when the only selection is a bare
cursor: `new vscode.Range(0, 0, lastLine, lastChar)`. -/
def wholeRange (d : Doc) : Range :=
  ⟨⟨0, 0⟩, ⟨d.length - 1, (lineTextAt d (d.length - 1)).length⟩⟩

/-- Lines 161–206 of `extension.js`: turn the selections into the list
of ranges to scan, or fail. -/
def getRanges (d : Doc) (sels : List Selection) : Except AlignError (List Range) :=
  match sels with
  | [sel] =>
      if sel.isEmpty then
        if d.length < 2 then .error .insufficientLines
        else .ok [wholeRange d]
      else multiSelRanges d [sel]
  | _ => multiSelRanges d sels

/-- Scan one line of a range (lines 214–241 of `extension.js`): slice
out the selected part of the line, run the regex, and re-base the match
index to an absolute column. -/
def scanLine (r : Regex) (d : Doc) (rg : Range) (line : Nat) : Option Nat :=
  let fullText := lineTextAt d line
  let st :=
    if rg.start.line = rg.stop.line then
      (jsSubstring fullText rg.start.character rg.stop.character, rg.start.character)
    else if line = rg.start.line then
      (fullText.drop rg.start.character, rg.start.character)
    else if line = rg.stop.line then
      (fullText.take rg.stop.character, 0)
    else
      (fullText, 0)
  (exec r st.1).map (· + st.2)

/-- The line indices a range makes the scan visit (the inner `for`
loop bounds). -/
def linesOf (rg : Range) : List Nat :=
  List.range' rg.start.line (rg.stop.line + 1 - rg.start.line)

/-- All line indices visited by the scan, in visiting order. -/
def scannedLines (ranges : List Range) : List Nat := ranges.flatMap linesOf

/-- The full match-collection pass: every recorded `MatchPos`, in the
order `positions.push` produces them. -/
def scanRanges (r : Regex) (d : Doc) (ranges : List Range) : List MatchPos :=
  ranges.flatMap fun rg =>
    (linesOf rg).filterMap fun line =>
      (scanLine r d rg line).map fun c => ⟨line, c⟩

/-- The `rightmostChar` accumulator: starts at `-1` and takes the
maximum of the recorded columns. -/
def rightmostChar (ps : List MatchPos) : Int :=
  ps.foldl (fun acc p => if (p.character : Int) > acc then (p.character : Int) else acc) (-1)

/-- Lines 256–266 of `extension.js`: for each recorded position, plan
`rightmostChar - position.character` spaces, skipping counts below 1. -/
def planEdits (ps : List MatchPos) : List Insertion :=
  ps.filterMap fun p =>
    if rightmostChar ps - (p.character : Int) < 1 then none
    else some ⟨p.line, p.character, (rightmostChar ps - (p.character : Int)).toNat⟩

/-- The whole `alignCustomPattern` pipeline after pattern resolution:
either an error (surfaced via `showErrorMessage`) or the list of
planned insertions. -/
def alignCustomPattern (r : Regex) (d : Doc) (sels : List Selection) :
    Except AlignError (List Insertion) :=
  match getRanges d sels with
  | .error e => .error e
  | .ok ranges =>
      let positions := scanRanges r d ranges
      if positions.length = 0 then .error .noMatchesFound
      else if positions.length = 1 then .error .singleMatchFound
      else .ok (planEdits positions)

/-- Insert `count` spaces into a line at character `ch` (positions past
the end of the line are clamped, as the editor does). -/
def insertAt (l : List Char) (ch count : Nat) : List Char :=
  l.take ch ++ List.replicate count ' ' ++ l.drop ch

/-- Apply one planned insertion to the document. -/
def applyInsertion (d : Doc) (ins : Insertion) : Doc :=
  d.set ins.line (insertAt (lineTextAt d ins.line) ins.character ins.count)

/-- Apply the planned insertions in order, as the sequential awaited
`editor.edit` calls do. -/
def applyInsertions (d : Doc) (l : List Insertion) : Doc := l.foldl applyInsertion d

/-- The document after running `alignCustomPattern`: unchanged whenever
the pipeline failed. -/
def runAlign (r : Regex) (d : Doc) (sels : List Selection) : Doc :=
  match alignCustomPattern r d sels with
  | .error _ => d
  | .ok ins => applyInsertions d ins

/-- The `COMMENT_PATTERNS` table of `extension.js`, verbatim
(`\x7b` is `{` and `\x27` is the single-quote character). -/
def COMMENT_PATTERNS : List (String × String) := [
  ("coffeescript",     "#"),
  ("dockercompose",    "#"),
  ("dockerfile",       "#"),
  ("elixir",           "#"),
  ("gdscript",         "#"),
  ("ignore",           "#"),
  ("julia",            "#"),
  ("makefile",         "#"),
  ("perl",             "#"),
  ("powershell",       "#"),
  ("python",           "#"),
  ("r",                "#"),
  ("raku",             "#"),
  ("ruby",             "#"),
  ("shellscript",      "#"),
  ("ssh_config",       "#"),
  ("yaml",             "#"),
  ("html",             "<!--"),
  ("markdown",         "<!--"),
  ("php",              "<!--"),
  ("razor",            "<!--"),
  ("xml",              "<!--"),
  ("xsl",              "<!--"),
  ("ada",              "--|/\\*"),
  ("lua",              "--|/\\*"),
  ("haskell",          "--|/\\*"),
  ("sql",              "--|/\\*"),
  ("sqlite",           "--|/\\*"),
  ("bibtex",           "%"),
  ("erlang",           "%"),
  ("latex",            "%"),
  ("matlab",           "%"),
  ("tex",              "%"),
  ("gdresource",       ";"),
  ("gdscene",          ";"),
  ("ini",              ";"),
  ("properties",       ";"),
  ("fsharp",           "//"),
  ("shaderlab",        "//"),
  ("bat",              "@[rR][eE][mM]"),
  ("css",              "/\\*"),
  ("clojure",          ";;"),
  ("handlebars",       "\x7b\x7b!--"),
  ("jade",             "//-"),
  ("ocaml",            "\\(\\*"),
  ("prolog",           "%|/\\*"),
  ("restructuredtext", ".."),
  ("vb",               "\x27")]

/-- Lines 131–134 of `extension.js`: look the language up in the table
and fall back to the pattern string `/[/*]`. -/
def commentPattern (languageId : String) : String :=
  (COMMENT_PATTERNS.lookup languageId).getD "/[/*]"

/-- The compiled form of the fallback pattern string `/[/*]`: a literal
`/` followed by the character class `[/*]`. -/
def fallbackCommentRegex : Regex := .seq (.cls ['/']) (.cls ['/', '*'])

/-- The pattern argument of `alignCustomPattern`: a string, `undefined`
(prompt the user), or any other JSON value (kept as its printed form). -/
inductive PatternSource where
  | str (s : String) : PatternSource
  | undef : PatternSource
  | other (printed : String) : PatternSource

/-- The `createRegExp` helper (lines 80–110 of `extension.js`).
`compile` stands for `new RegExp` (which may throw a diagnostic) and
`promptResult` for the outcome of `showInputBox`.  The second component
collects every `showErrorMessage` call. -/
def createRegExp (compile : String → Except String Regex)
    (promptResult : Option String) : PatternSource → Option Regex × List String
  | .str s =>
      match compile s with
      | .ok r => (some r, [])
      | .error m => (none, [m])
  | .undef =>
      match promptResult with
      | none => (none, [])
      | some s =>
          match compile s with
          | .ok r => (some r, [])
          | .error m => (none, [m])
  | .other printed => (none, ["Expected a string arg but got: " ++ printed])

/-- The message `showErrorMessage` receives for each pipeline failure. -/
def errMessage : AlignError → String
  | .insufficientLines => "Document should have multiple lines"
  | .duplicateLineSelection n =>
      "Only 1 selection per line is allowed (line " ++ toString n ++ ")"
  | .insufficientSelection => "Multiple lines must be selected"
  | .noMatchesFound => "No matches found for pattern"
  | .singleMatchFound => "Only 1 match found for pattern"

/-- The full `alignCustomPattern` command, pattern resolution included:
the final document and every error message surfaced. -/
def runCommand (compile : String → Except String Regex) (promptResult : Option String)
    (src : PatternSource) (d : Doc) (sels : List Selection) : Doc × List String :=
  match createRegExp compile promptResult src with
  | (none, msgs) => (d, msgs)
  | (some r, msgs) =>
      match alignCustomPattern r d sels with
      | .error e => (d, msgs ++ [errMessage e])
      | .ok ins => (applyInsertions d ins, msgs)

/-! ### Facts about the regex engine -/

theorem execAux_eq_some {r : Regex} :
    ∀ (cs : List Char) (i j : Nat), execAux r cs i = some j →
      ∃ k, j = i + k ∧ matchPre r (cs.drop k) ≠ [] ∧ ∀ m < k, matchPre r (cs.drop m) = [] := by
  intro cs
  induction cs with
  | nil =>
      intro i j h
      unfold execAux at h
      split at h
      · exact absurd h (by simp)
      · refine ⟨0, by simpa using (Option.some.inj h).symm,
          by simpa using ‹¬ matchPre r [] = []›, ?_⟩
        intro m hm
        exact absurd hm (Nat.not_lt_zero m)
  | cons c rest ih =>
      intro i j h
      unfold execAux at h
      split at h
      · obtain ⟨k, hk, hmatch, hnone⟩ := ih (i + 1) j h
        refine ⟨k + 1, by omega, by simpa using hmatch, ?_⟩
        intro m hm
        match m with
        | 0 => simpa using ‹matchPre r (c :: rest) = []›
        | m' + 1 => exact hnone m' (by omega)
      · refine ⟨0, by simpa using (Option.some.inj h).symm,
          by simpa using ‹¬ matchPre r (c :: rest) = []›, ?_⟩
        intro m hm
        exact absurd hm (Nat.not_lt_zero m)

theorem execAux_of_leftmost {r : Regex} :
    ∀ (cs : List Char) (i k : Nat), matchPre r (cs.drop k) ≠ [] →
      (∀ m < k, matchPre r (cs.drop m) = []) → execAux r cs i = some (i + k) := by
  intro cs
  induction cs with
  | nil =>
      intro i k hmatch hnone
      have hk : k = 0 := by
        by_contra hne
        exact hmatch (by simpa using hnone 0 (by omega))
      subst hk
      simp only [List.drop_nil] at hmatch
      unfold execAux
      simp [hmatch]
  | cons c rest ih =>
      intro i k hmatch hnone
      match k with
      | 0 =>
          unfold execAux
          simp only [List.drop] at hmatch
          simp [hmatch]
      | k' + 1 =>
          have h0 : matchPre r (c :: rest) = [] := by simpa using hnone 0 (by omega)
          unfold execAux
          simp only [h0, if_pos rfl]
          have harith : i + (k' + 1) = (i + 1) + k' := by omega
          rw [harith]
          exact ih (i + 1) k' (by simpa using hmatch)
            (fun m hm => by simpa using hnone (m + 1) (by omega))

theorem exec_eq_some_iff {r : Regex} {cs : List Char} {i : Nat} :
    exec r cs = some i ↔ matchesAt r cs i ∧ ∀ j < i, ¬ matchesAt r cs j := by
  constructor
  · intro h
    obtain ⟨k, hk, hmatch, hnone⟩ := execAux_eq_some cs 0 i h
    have hki : k = i := by omega
    subst hki
    exact ⟨hmatch, fun j hj hmj => hmj (hnone j hj)⟩
  · intro ⟨hmatch, hnone⟩
    have := execAux_of_leftmost (r := r) cs 0 i hmatch
      (fun m hm => by
        by_contra hne
        exact hnone m hm hne)
    simpa [exec] using this

/-! ### The fallback comment pattern -/

/-- Where the compiled fallback pattern `/[/*]` can match: a `/`
immediately followed by a second `/` or by a `*`. -/
def fallbackHit (cs : List Char) (i : Nat) : Prop :=
  cs[i]? = some '/' ∧ (cs[i + 1]? = some '/' ∨ cs[i + 1]? = some '*')

instance (cs : List Char) (i : Nat) : Decidable (fallbackHit cs i) :=
  inferInstanceAs (Decidable (_ ∧ _))

theorem matchPre_fallback_ne {cs : List Char} :
    matchPre fallbackCommentRegex cs ≠ [] ↔
      cs[0]? = some '/' ∧ (cs[1]? = some '/' ∨ cs[1]? = some '*') := by
  match cs with
  | [] => simp [fallbackCommentRegex, matchPre]
  | [c] =>
      by_cases h : c = '/' <;> simp [fallbackCommentRegex, matchPre, h]
  | c :: c2 :: rest =>
      by_cases hc : c = '/' <;> by_cases h2 : c2 = '/' <;> by_cases h3 : c2 = '*' <;>
        simp [fallbackCommentRegex, matchPre, hc, h2, h3]

theorem matchesAt_fallback {cs : List Char} {i : Nat} :
    matchesAt fallbackCommentRegex cs i ↔ fallbackHit cs i := by
  unfold matchesAt fallbackHit
  rw [matchPre_fallback_ne]
  simp [List.getElem?_drop]

/-! ### Facts about `rightmostChar` -/

theorem foldl_rm_ge_init (ps : List MatchPos) :
    ∀ acc : Int, acc ≤ ps.foldl
      (fun acc p => if (p.character : Int) > acc then (p.character : Int) else acc) acc := by
  induction ps with
  | nil => intro acc; simp
  | cons p rest ih =>
      intro acc
      refine le_trans ?_ (ih (if (p.character : Int) > acc then (p.character : Int) else acc))
      split <;> omega

theorem foldl_rm_ge_mem (ps : List MatchPos) :
    ∀ (acc : Int) (p : MatchPos), p ∈ ps → (p.character : Int) ≤ ps.foldl
      (fun acc p => if (p.character : Int) > acc then (p.character : Int) else acc) acc := by
  induction ps with
  | nil => intro acc p hp; simp at hp
  | cons q rest ih =>
      intro acc p hp
      rcases List.mem_cons.mp hp with h | h
      · subst h
        simp only [List.foldl_cons]
        refine le_trans ?_ (foldl_rm_ge_init rest _)
        split <;> omega
      · exact ih _ p h

theorem foldl_rm_realized (ps : List MatchPos) :
    ∀ acc : Int, ps.foldl
      (fun acc p => if (p.character : Int) > acc then (p.character : Int) else acc) acc = acc
      ∨ ∃ p ∈ ps, ps.foldl
        (fun acc p => if (p.character : Int) > acc then (p.character : Int) else acc) acc
          = (p.character : Int) := by
  induction ps with
  | nil => intro acc; left; rfl
  | cons q rest ih =>
      intro acc
      simp only [List.foldl_cons]
      rcases ih (if (q.character : Int) > acc then (q.character : Int) else acc) with h | h
      · rw [h]
        split
        · right; exact ⟨q, List.mem_cons_self _ _, rfl⟩
        · left; rfl
      · obtain ⟨p, hp, hval⟩ := h
        right; exact ⟨p, List.mem_cons_of_mem _ hp, hval⟩

theorem rightmostChar_ge {ps : List MatchPos} {p : MatchPos} (hp : p ∈ ps) :
    (p.character : Int) ≤ rightmostChar ps :=
  foldl_rm_ge_mem ps (-1) p hp

theorem rightmostChar_nonneg {ps : List MatchPos} (hne : ps ≠ []) :
    0 ≤ rightmostChar ps := by
  match ps with
  | [] => exact absurd rfl hne
  | p :: rest => exact le_trans (by omega) (rightmostChar_ge (List.mem_cons_self p rest))

theorem rightmostChar_mem {ps : List MatchPos} (hne : ps ≠ []) :
    ∃ p ∈ ps, rightmostChar ps = (p.character : Int) := by
  rcases foldl_rm_realized ps (-1) with h | h
  · exfalso
    have h0 := rightmostChar_nonneg hne
    have h1 : rightmostChar ps = -1 := h
    omega
  · exact h

theorem rightmostChar_toNat {ps : List MatchPos} (hne : ps ≠ []) :
    (((rightmostChar ps).toNat : Int)) = rightmostChar ps :=
  Int.toNat_of_nonneg (rightmostChar_nonneg hne)

/-! ### Facts about `planEdits` -/

theorem mem_planEdits_of_lt {ps : List MatchPos} {p : MatchPos} (hp : p ∈ ps)
    (hlt : p.character < (rightmostChar ps).toNat) :
    (⟨p.line, p.character, (rightmostChar ps).toNat - p.character⟩ : Insertion)
      ∈ planEdits ps := by
  have h0 := rightmostChar_nonneg (List.ne_nil_of_mem hp)
  unfold planEdits
  refine List.mem_filterMap.mpr ⟨p, hp, ?_⟩
  have hcond : ¬ (rightmostChar ps - (p.character : Int) < 1) := by omega
  rw [if_neg hcond]
  have harith : (rightmostChar ps - (p.character : Int)).toNat
      = (rightmostChar ps).toNat - p.character := by omega
  rw [harith]

theorem planEdits_mem_spec {ps : List MatchPos} {e : Insertion} (he : e ∈ planEdits ps) :
    ∃ p ∈ ps, e.line = p.line ∧ e.character = p.character ∧
      e.character < (rightmostChar ps).toNat ∧
      e.count = (rightmostChar ps).toNat - e.character ∧ 1 ≤ e.count := by
  unfold planEdits at he
  obtain ⟨p, hp, hpe⟩ := List.mem_filterMap.mp he
  have h0 := rightmostChar_nonneg (List.ne_nil_of_mem hp)
  by_cases hc : rightmostChar ps - (p.character : Int) < 1
  · rw [if_pos hc] at hpe; exact absurd hpe (by simp)
  · rw [if_neg hc] at hpe
    obtain rfl := Option.some.inj hpe
    refine ⟨p, hp, rfl, rfl, ?_, ?_, ?_⟩
    · show p.character < (rightmostChar ps).toNat
      omega
    · show (rightmostChar ps - (p.character : Int)).toNat
        = (rightmostChar ps).toNat - p.character
      omega
    · show 1 ≤ (rightmostChar ps - (p.character : Int)).toNat
      omega

/-! ### Sublist helpers -/

theorem filterMap_sublist_map {α β : Type} (f : α → Option β) (h : α → β)
    (hf : ∀ a b, f a = some b → b = h a) :
    ∀ l : List α, List.Sublist (l.filterMap f) (l.map h) := by
  intro l
  induction l with
  | nil => simp
  | cons a rest ih =>
      simp only [List.filterMap_cons, List.map_cons]
      cases hfa : f a with
      | none => exact ih.cons (h a)
      | some b => rw [hf a b hfa]; exact ih.cons₂ (h a)

theorem filterMap_sublist_self {α : Type} (f : α → Option α)
    (hf : ∀ a b, f a = some b → b = a) (l : List α) :
    List.Sublist (l.filterMap f) l := by
  have := filterMap_sublist_map f id hf l
  simpa using this

/-! ### Reduction helpers for `Except` -/

theorem exBind_ok {ε α β : Type} (a : α) (f : α → Except ε β) :
    (Except.ok a : Except ε α).bind f = f a := rfl

theorem exBind_err {ε α β : Type} (e : ε) (f : α → Except ε β) :
    (Except.error e : Except ε α).bind f = .error e := rfl

theorem exMap_ok {ε α β : Type} (f : α → β) (a : α) :
    (Except.ok a : Except ε α).map f = .ok (f a) := rfl

theorem exMap_err {ε α β : Type} (f : α → β) (e : ε) :
    (Except.error e : Except ε α).map f = .error e := rfl

/-! ### The first duplicated claimed line -/

/-- Helper for `firstDup`: scan the list, remembering the entries seen. -/
def firstDupAux : List Nat → List Nat → Option Nat
  | [], _ => none
  | l :: rest, seen => if l ∈ seen then some l else firstDupAux rest (seen ++ [l])

/-- The first entry of the list that repeats an earlier entry — the
first duplicate the selection normalizer can notice. -/
def firstDup (ls : List Nat) : Option Nat := firstDupAux ls []

theorem claimLinesAux_append :
    ∀ (xs ys claimed : List Nat), claimLinesAux (xs ++ ys) claimed =
      (claimLinesAux xs claimed).bind fun c => claimLinesAux ys c := by
  intro xs
  induction xs with
  | nil => intro ys claimed; rfl
  | cons l rest ih =>
      intro ys claimed
      simp only [List.cons_append, claimLinesAux]
      split
      · rfl
      · exact ih ys (claimed ++ [l])

theorem claimLinesAux_eq_firstDup :
    ∀ (ls claimed : List Nat), claimLinesAux ls claimed =
      match firstDupAux ls claimed with
      | some l => .error (.duplicateLineSelection (l + 1))
      | none => .ok (claimed ++ ls) := by
  intro ls
  induction ls with
  | nil => intro claimed; simp [claimLinesAux, firstDupAux]
  | cons l rest ih =>
      intro claimed
      simp only [claimLinesAux, firstDupAux]
      split
      · rfl
      · rw [ih (claimed ++ [l])]
        cases firstDupAux rest (claimed ++ [l]) <;> simp

theorem claimLinesAux_ok_eq {ls claimed c' : List Nat}
    (h : claimLinesAux ls claimed = .ok c') : c' = claimed ++ ls := by
  rw [claimLinesAux_eq_firstDup] at h
  cases hfd : firstDupAux ls claimed <;> rw [hfd] at h
  · exact (Except.ok.inj h).symm
  · exact absurd h (by simp)

theorem claimLinesAux_ok_nodup :
    ∀ (ls claimed c' : List Nat), claimLinesAux ls claimed = .ok c' →
      claimed.Nodup → c'.Nodup := by
  intro ls
  induction ls with
  | nil =>
      intro claimed c' h hnd
      exact (Except.ok.inj h) ▸ hnd
  | cons l rest ih =>
      intro claimed c' h hnd
      unfold claimLinesAux at h
      split at h
      · exact absurd h (by simp)
      · refine ih (claimed ++ [l]) c' h ?_
        simp [List.nodup_append, hnd, ‹l ∉ claimed›]

/-! ### The selection normalizer -/

theorem selectionRangesAux_cons (d : Doc) (sel : Selection) (rest : List Selection)
    (claimed : List Nat) (rs : List Range) :
    selectionRangesAux d (sel :: rest) claimed rs =
      if sel.isEmpty then
        if sel.start.line ∈ claimed then
          .error (.duplicateLineSelection (sel.start.line + 1))
        else
          selectionRangesAux d rest (claimed ++ [sel.start.line])
            (rs ++ [⟨⟨sel.start.line, 0⟩,
              ⟨sel.start.line, (lineTextAt d sel.start.line).length⟩⟩])
      else
        match claimLinesAux
            (List.range' sel.start.line (sel.stop.line + 1 - sel.start.line)) claimed with
        | .error e => .error e
        | .ok claimed' =>
            selectionRangesAux d rest claimed' (rs ++ [⟨sel.start, sel.stop⟩]) := rfl

theorem selectionRangesAux_eq (d : Doc) :
    ∀ (sels : List Selection) (claimed : List Nat) (rs : List Range),
      selectionRangesAux d sels claimed rs =
        (claimLinesAux (claimedSeq sels) claimed).map fun c' =>
          (rs ++ selRangesOf d sels, c') := by
  intro sels
  induction sels with
  | nil =>
      intro claimed rs
      simp [selectionRangesAux, claimedSeq, claimLinesAux, selRangesOf, exMap_ok]
  | cons sel rest ih =>
      intro claimed rs
      have hseq : claimedSeq (sel :: rest) = selLines sel ++ claimedSeq rest := by
        simp [claimedSeq]
      rw [hseq, claimLinesAux_append]
      by_cases hempty : sel.isEmpty
      · have hsel : selLines sel = [sel.start.line] := by simp [selLines, hempty]
        rw [hsel]
        have hrng : selRangesOf d (sel :: rest) =
            (⟨⟨sel.start.line, 0⟩,
              ⟨sel.start.line, (lineTextAt d sel.start.line).length⟩⟩ : Range)
              :: selRangesOf d rest := by
          simp [selRangesOf, hempty]
        have happ : rs ++ selRangesOf d (sel :: rest)
            = (rs ++ [(⟨⟨sel.start.line, 0⟩,
                ⟨sel.start.line, (lineTextAt d sel.start.line).length⟩⟩ : Range)])
              ++ selRangesOf d rest := by
          rw [hrng, List.append_cons]
        by_cases hmem : sel.start.line ∈ claimed
        · have hcl1 : claimLinesAux [sel.start.line] claimed
              = .error (.duplicateLineSelection (sel.start.line + 1)) := by
            simp [claimLinesAux, hmem]
          rw [hcl1, exBind_err, exMap_err]
          rw [selectionRangesAux_cons, if_pos hempty, if_pos hmem]
        · have hcl1 : claimLinesAux [sel.start.line] claimed
              = .ok (claimed ++ [sel.start.line]) := by
            simp [claimLinesAux, hmem]
          rw [hcl1, exBind_ok]
          rw [selectionRangesAux_cons, if_pos hempty, if_neg hmem]
          rw [ih]
          simp only [happ]
      · have hsel : selLines sel
            = List.range' sel.start.line (sel.stop.line + 1 - sel.start.line) := by
          simp [selLines, hempty]
        rw [hsel]
        have hrng : selRangesOf d (sel :: rest) =
            (⟨sel.start, sel.stop⟩ : Range) :: selRangesOf d rest := by
          simp [selRangesOf, hempty]
        have happ : rs ++ selRangesOf d (sel :: rest)
            = (rs ++ [(⟨sel.start, sel.stop⟩ : Range)]) ++ selRangesOf d rest := by
          rw [hrng, List.append_cons]
        rw [selectionRangesAux_cons, if_neg hempty]
        cases hcl : claimLinesAux
            (List.range' sel.start.line (sel.stop.line + 1 - sel.start.line)) claimed with
        | error e => rw [exBind_err, exMap_err]
        | ok claimed' =>
            rw [exBind_ok]
            show selectionRangesAux d rest claimed'
                (rs ++ [(⟨sel.start, sel.stop⟩ : Range)])
              = (claimLinesAux (claimedSeq rest) claimed').map fun c' =>
                  (rs ++ selRangesOf d (sel :: rest), c')
            rw [ih]
            simp only [happ]

theorem multiSelRanges_eq (d : Doc) (sels : List Selection) :
    multiSelRanges d sels =
      match claimLinesAux (claimedSeq sels) [] with
      | .error e => .error e
      | .ok c' =>
          if c'.length < 2 then .error .insufficientSelection
          else .ok (selRangesOf d sels) := by
  unfold multiSelRanges
  rw [selectionRangesAux_eq]
  cases claimLinesAux (claimedSeq sels) [] <;> simp [Except.map]

theorem scannedLines_selRangesOf (d : Doc) :
    ∀ sels : List Selection, scannedLines (selRangesOf d sels) = claimedSeq sels := by
  intro sels
  induction sels with
  | nil => rfl
  | cons sel rest ih =>
      have hcons : scannedLines (selRangesOf d (sel :: rest))
          = linesOf (if sel.isEmpty then
                ⟨⟨sel.start.line, 0⟩,
                  ⟨sel.start.line, (lineTextAt d sel.start.line).length⟩⟩
              else ⟨sel.start, sel.stop⟩) ++ scannedLines (selRangesOf d rest) := by
        simp [selRangesOf, scannedLines]
      have hseq : claimedSeq (sel :: rest) = selLines sel ++ claimedSeq rest := by
        simp [claimedSeq]
      rw [hcons, ih, hseq]
      congr 1
      by_cases hempty : sel.isEmpty
      · simp only [if_pos hempty, linesOf, selLines]
        simp [Nat.add_sub_cancel_left, List.range'_one, hempty]
      · simp only [if_neg hempty, linesOf, selLines, hempty]
        simp [hempty]

/-! ### Characterizing the successful runs of the normalizer -/

theorem multiSelRanges_ok {d : Doc} {sels : List Selection} {ranges : List Range}
    (h : multiSelRanges d sels = .ok ranges) :
    claimLinesAux (claimedSeq sels) [] = .ok (claimedSeq sels)
      ∧ 2 ≤ (claimedSeq sels).length ∧ ranges = selRangesOf d sels := by
  rw [multiSelRanges_eq] at h
  cases hcl : claimLinesAux (claimedSeq sels) [] with
  | error e => rw [hcl] at h; exact absurd h (by simp)
  | ok c' =>
      have hc' : c' = claimedSeq sels := by simpa using claimLinesAux_ok_eq hcl
      subst hc'
      rw [hcl] at h
      simp only [] at h
      split at h
      · exact absurd h (by simp)
      · exact ⟨rfl, by omega, (Except.ok.inj h).symm⟩

theorem claimedSeq_nodup {sels : List Selection}
    (h : claimLinesAux (claimedSeq sels) [] = .ok (claimedSeq sels)) :
    (claimedSeq sels).Nodup := by
  have := claimLinesAux_ok_nodup (claimedSeq sels) [] (claimedSeq sels) h (by simp)
  exact this

theorem scannedLines_wholeRange {d : Doc} (h2 : 2 ≤ d.length) :
    scannedLines [wholeRange d] = List.range d.length := by
  have hcount : d.length - 1 + 1 - 0 = d.length := by omega
  simp only [scannedLines, wholeRange, linesOf, List.flatMap_cons, List.flatMap_nil,
    List.append_nil]
  rw [hcount, ← List.range_eq_range']

/-! ### The match scan as a per-line computation -/

theorem scanRanges_cons (r : Regex) (d : Doc) (rg : Range) (rest : List Range) :
    scanRanges r d (rg :: rest) =
      ((linesOf rg).filterMap fun line =>
        (scanLine r d rg line).map fun c => (⟨line, c⟩ : MatchPos))
        ++ scanRanges r d rest := by
  simp [scanRanges]

theorem scanRanges_lines_sublist (r : Regex) (d : Doc) :
    ∀ ranges : List Range,
      List.Sublist ((scanRanges r d ranges).map MatchPos.line) (scannedLines ranges) := by
  intro ranges
  induction ranges with
  | nil => simp [scanRanges, scannedLines]
  | cons rg rest ih =>
      rw [scanRanges_cons, List.map_append]
      have hsc : scannedLines (rg :: rest) = linesOf rg ++ scannedLines rest := by
        simp [scannedLines]
      rw [hsc]
      refine List.Sublist.append ?_ ih
      have hblock : (((linesOf rg).filterMap fun line =>
            (scanLine r d rg line).map fun c => (⟨line, c⟩ : MatchPos)).map MatchPos.line)
          = (linesOf rg).filterMap fun line => (scanLine r d rg line).map fun _ => line := by
        rw [List.map_filterMap]
        refine List.filterMap_congr ?_
        intro a _
        cases scanLine r d rg a <;> simp
      rw [hblock]
      refine filterMap_sublist_self _ ?_ _
      intro a b hab
      cases hs : scanLine r d rg a <;> rw [hs] at hab
      · exact absurd hab (by simp)
      · exact (Option.some.inj hab).symm

theorem planEdits_lines_sublist (ps : List MatchPos) :
    List.Sublist ((planEdits ps).map Insertion.line) (ps.map MatchPos.line) := by
  unfold planEdits
  rw [List.map_filterMap]
  refine filterMap_sublist_map _ _ ?_ _
  intro p e hpe
  by_cases hc : rightmostChar ps - (p.character : Int) < 1
  · rw [if_pos hc] at hpe; exact absurd hpe (by simp)
  · rw [if_neg hc] at hpe
    simpa using hpe.symm

/-! ### Applying the planned insertions -/

theorem applyInsertions_cons (d : Doc) (i : Insertion) (l : List Insertion) :
    applyInsertions d (i :: l) = applyInsertions (applyInsertion d i) l := rfl

theorem length_applyInsertion (d : Doc) (i : Insertion) :
    (applyInsertion d i).length = d.length := by
  simp [applyInsertion]

theorem length_applyInsertions :
    ∀ (l : List Insertion) (d : Doc), (applyInsertions d l).length = d.length := by
  intro l
  induction l with
  | nil => intro d; rfl
  | cons i rest ih =>
      intro d
      rw [applyInsertions_cons, ih, length_applyInsertion]

theorem lineTextAt_applyInsertion_ne {d : Doc} {i : Insertion} {l : Nat}
    (h : i.line ≠ l) : lineTextAt (applyInsertion d i) l = lineTextAt d l := by
  unfold lineTextAt applyInsertion
  rw [List.getD_eq_getElem?_getD, List.getD_eq_getElem?_getD, List.getElem?_set_ne h]

theorem lineTextAt_applyInsertions_ne {l : Nat} :
    ∀ (ins : List Insertion) (d : Doc), (∀ i ∈ ins, i.line ≠ l) →
      lineTextAt (applyInsertions d ins) l = lineTextAt d l := by
  intro ins
  induction ins with
  | nil => intro d _; rfl
  | cons i rest ih =>
      intro d h
      rw [applyInsertions_cons, ih _ fun j hj => h j (List.mem_cons_of_mem i hj),
        lineTextAt_applyInsertion_ne (h i (List.mem_cons_self i rest))]

theorem lineTextAt_applyInsertion_self {d : Doc} {i : Insertion} (h : i.line < d.length) :
    lineTextAt (applyInsertion d i) i.line
      = insertAt (lineTextAt d i.line) i.character i.count := by
  unfold lineTextAt applyInsertion
  rw [List.getD_eq_getElem?_getD, List.getElem?_set_self (by simpa using h)]
  rfl

theorem lineTextAt_applyInsertions_mem :
    ∀ (ins : List Insertion) (d : Doc) (i : Insertion), (ins.map Insertion.line).Nodup →
      i ∈ ins → i.line < d.length →
      lineTextAt (applyInsertions d ins) i.line
        = insertAt (lineTextAt d i.line) i.character i.count := by
  intro ins
  induction ins with
  | nil => intro d i _ hmem _; exact absurd hmem (by simp)
  | cons j rest ih =>
      intro d i hnd hmem hlt
      rw [List.map_cons, List.nodup_cons] at hnd
      rw [applyInsertions_cons]
      rcases List.mem_cons.mp hmem with rfl | hmem'
      · have hnotin : ∀ i' ∈ rest, i'.line ≠ i.line := by
          intro i' hi' heq
          exact hnd.1 (heq ▸ List.mem_map_of_mem Insertion.line hi')
        rw [lineTextAt_applyInsertions_ne rest _ hnotin]
        exact lineTextAt_applyInsertion_self hlt
      · have hne : j.line ≠ i.line := by
          intro heq
          exact hnd.1 (heq ▸ List.mem_map_of_mem Insertion.line hmem')
        rw [ih (applyInsertion d j) i hnd.2 hmem'
            (by rw [length_applyInsertion]; exact hlt),
          lineTextAt_applyInsertion_ne hne]

theorem applyInsertion_comm {d : Doc} {i j : Insertion} (h : i.line ≠ j.line) :
    applyInsertion (applyInsertion d i) j = applyInsertion (applyInsertion d j) i := by
  have h1 : lineTextAt (applyInsertion d i) j.line = lineTextAt d j.line :=
    lineTextAt_applyInsertion_ne h
  have h2 : lineTextAt (applyInsertion d j) i.line = lineTextAt d i.line :=
    lineTextAt_applyInsertion_ne (Ne.symm h)
  show (applyInsertion d i).set j.line
      (insertAt (lineTextAt (applyInsertion d i) j.line) j.character j.count)
    = (applyInsertion d j).set i.line
      (insertAt (lineTextAt (applyInsertion d j) i.line) i.character i.count)
  rw [h1, h2]
  exact List.set_comm _ _ d h

theorem applyInsertions_perm {d : Doc} {l₁ l₂ : List Insertion} (hp : l₁.Perm l₂)
    (hnd : (l₁.map Insertion.line).Nodup) :
    applyInsertions d l₁ = applyInsertions d l₂ := by
  unfold applyInsertions
  refine hp.foldl_eq' ?_ d
  intro x hx y hy z
  by_cases hxy : x = y
  · subst hxy; rfl
  · have hline : x.line ≠ y.line := by
      intro heq
      exact hxy (List.inj_on_of_nodup_map hnd hx hy heq)
    exact applyInsertion_comm hline

/-! ### Full-line scanning -/

/-- Scan a list of full lines directly: the shape `scanRanges` takes
when every scanned range covers whole lines. -/
def fullScan (r : Regex) (d : Doc) (ls : List Nat) : List MatchPos :=
  ls.filterMap fun line => (exec r (lineTextAt d line)).map fun c => ⟨line, c⟩

/-- The line indices the pipeline scans for a given selection set. -/
def scanTargets (d : Doc) (sels : List Selection) : List Nat :=
  match sels with
  | [sel] => if sel.isEmpty then List.range d.length else claimedSeq [sel]
  | _ => claimedSeq sels

theorem omap_add_zero (o : Option Nat) : o.map (· + 0) = o := by
  cases o <;> simp

theorem scanLine_wholeRange {r : Regex} {d : Doc} {line : Nat} (h2 : 2 ≤ d.length) :
    scanLine r d (wholeRange d) line = exec r (lineTextAt d line) := by
  have hne : (0 : Nat) ≠ d.length - 1 := by omega
  unfold scanLine wholeRange
  simp only [if_neg hne]
  by_cases hl0 : line = 0
  · simp [hl0, omap_add_zero]
  · by_cases hlast : line = d.length - 1
    · simp [hl0, hlast, List.take_length, omap_add_zero]
    · simp [hl0, hlast, omap_add_zero]

theorem scanLine_fullSingle {r : Regex} {d : Doc} {l : Nat} :
    scanLine r d
      (⟨⟨l, 0⟩, ⟨l, (lineTextAt d l).length⟩⟩ : Range) l = exec r (lineTextAt d l) := by
  unfold scanLine jsSubstring
  simp [omap_add_zero, List.take_length]

theorem linesOf_single {l len : Nat} :
    linesOf (⟨⟨l, 0⟩, ⟨l, len⟩⟩ : Range) = [l] := by
  simp [linesOf, Nat.add_sub_cancel_left, List.range'_one]

theorem scanRanges_wholeRange {r : Regex} {d : Doc} (h2 : 2 ≤ d.length) :
    scanRanges r d [wholeRange d] = fullScan r d (List.range d.length) := by
  rw [scanRanges_cons]
  have hlines : linesOf (wholeRange d) = List.range d.length := by
    have hcount : d.length - 1 + 1 - 0 = d.length := by omega
    simp only [wholeRange, linesOf]
    rw [hcount, ← List.range_eq_range']
  rw [hlines]
  have hrest : scanRanges r d [] = [] := rfl
  rw [hrest, List.append_nil]
  refine List.filterMap_congr ?_
  intro a _
  rw [scanLine_wholeRange h2]

theorem scanRanges_allEmpty {r : Regex} {d : Doc} :
    ∀ sels : List Selection, (∀ s ∈ sels, s.isEmpty) →
      scanRanges r d (selRangesOf d sels) = fullScan r d (claimedSeq sels) := by
  intro sels
  induction sels with
  | nil => intro _; rfl
  | cons sel rest ih =>
      intro hempty
      have hsel : sel.isEmpty := hempty sel (List.mem_cons_self sel rest)
      have hrng : selRangesOf d (sel :: rest) =
          (⟨⟨sel.start.line, 0⟩,
            ⟨sel.start.line, (lineTextAt d sel.start.line).length⟩⟩ : Range)
            :: selRangesOf d rest := by
        simp [selRangesOf, hsel]
      rw [hrng, scanRanges_cons, linesOf_single,
        ih fun s hs => hempty s (List.mem_cons_of_mem sel hs)]
      have hseq : claimedSeq (sel :: rest) = sel.start.line :: claimedSeq rest := by
        simp [claimedSeq, selLines, hsel]
      rw [hseq]
      unfold fullScan
      rw [List.filterMap_cons, List.filterMap_cons]
      rw [scanLine_fullSingle]
      cases exec r (lineTextAt d sel.start.line) <;> simp

theorem mem_fullScan_iff {r : Regex} {d : Doc} {L : List Nat} {p : MatchPos} :
    p ∈ fullScan r d L ↔ p.line ∈ L ∧ exec r (lineTextAt d p.line) = some p.character := by
  unfold fullScan
  rw [List.mem_filterMap]
  constructor
  · rintro ⟨l, hl, hmap⟩
    cases hexec : exec r (lineTextAt d l) with
    | none => rw [hexec] at hmap; exact absurd hmap (by simp)
    | some c =>
        rw [hexec] at hmap
        have hp : (⟨l, c⟩ : MatchPos) = p := Option.some.inj hmap
        subst hp
        exact ⟨hl, hexec⟩
  · rintro ⟨hl, hexec⟩
    refine ⟨p.line, hl, ?_⟩
    rw [hexec]
    rfl

theorem fullScan_lines_sublist (r : Regex) (d : Doc) (L : List Nat) :
    List.Sublist ((fullScan r d L).map MatchPos.line) L := by
  unfold fullScan
  rw [List.map_filterMap]
  have hcongr : ∀ a ∈ L, ((exec r (lineTextAt d a)).map fun c =>
      (⟨a, c⟩ : MatchPos)).map MatchPos.line = (exec r (lineTextAt d a)).map fun _ => a := by
    intro a _
    cases exec r (lineTextAt d a) <;> simp
  rw [List.filterMap_congr hcongr]
  refine filterMap_sublist_self _ ?_ _
  intro a b hab
  cases hs : exec r (lineTextAt d a) <;> rw [hs] at hab
  · exact absurd hab (by simp)
  · exact (Option.some.inj hab).symm

theorem fullScan_map_const {r : Regex} {d d₂ : Doc} {M : Nat} :
    ∀ L : List Nat, (∀ l ∈ L, exec r (lineTextAt d₂ l)
        = (exec r (lineTextAt d l)).map fun _ => M) →
      fullScan r d₂ L = (fullScan r d L).map fun p => ⟨p.line, M⟩ := by
  intro L
  induction L with
  | nil => intro _; rfl
  | cons l rest ih =>
      intro h
      unfold fullScan
      rw [List.filterMap_cons, List.filterMap_cons]
      have hl := h l (List.mem_cons_self l rest)
      have hrest := ih fun a ha => h a (List.mem_cons_of_mem l ha)
      unfold fullScan at hrest
      cases hexec : exec r (lineTextAt d l) <;> rw [hexec] at hl <;>
        simp [hl, hexec, hrest]

theorem rightmostChar_map_const {ps : List MatchPos} {M : Nat} (hne : ps ≠ []) :
    rightmostChar (ps.map fun p => (⟨p.line, M⟩ : MatchPos)) = (M : Int) := by
  have hne2 : ps.map (fun p => (⟨p.line, M⟩ : MatchPos)) ≠ [] := by
    simpa using hne
  obtain ⟨q, hq, hval⟩ := rightmostChar_mem hne2
  obtain ⟨p, _, rfl⟩ := List.mem_map.mp hq
  exact hval

theorem planEdits_const_nil {ps : List MatchPos} {M : Nat} (hne : ps ≠ []) :
    planEdits (ps.map fun p => (⟨p.line, M⟩ : MatchPos)) = [] := by
  unfold planEdits
  rw [List.filterMap_eq_nil_iff]
  intro q hq
  obtain ⟨p, _, rfl⟩ := List.mem_map.mp hq
  rw [rightmostChar_map_const hne]
  have : (M : Int) - ((⟨p.line, M⟩ : MatchPos).character : Int) < 1 := by
    show (M : Int) - (M : Int) < 1
    omega
  rw [if_pos this]

theorem insertAt_zero (l : List Char) (ch : Nat) : insertAt l ch 0 = l := by
  simp [insertAt]

/-! ### Concrete compiled patterns used by the commands -/

/-- The compiled form of the fixed pattern string `" = "` used by
`alignAssignmentOperators`. -/
def assignmentRegex : Regex := .seq (.cls [' ']) (.seq (.cls ['=']) (.cls [' ']))

/-- The compiled form of the custom pattern string `"  "` (two spaces). -/
def twoSpacesRegex : Regex := .seq (.cls [' ']) (.cls [' '])

/-! ### Small equation lemmas for `getRanges` -/

theorem getRanges_nil (d : Doc) : getRanges d [] = multiSelRanges d [] := rfl

theorem getRanges_two (d : Doc) (a b : Selection) (rest : List Selection) :
    getRanges d (a :: b :: rest) = multiSelRanges d (a :: b :: rest) := rfl

theorem getRanges_single_empty {d : Doc} {sel : Selection} (hempty : sel.isEmpty) :
    getRanges d [sel]
      = if d.length < 2 then .error .insufficientLines else .ok [wholeRange d] := by
  show (if sel.isEmpty then
      (if d.length < 2 then (Except.error .insufficientLines : Except AlignError (List Range))
        else .ok [wholeRange d])
    else multiSelRanges d [sel])
    = if d.length < 2 then .error .insufficientLines else .ok [wholeRange d]
  rw [if_pos hempty]

theorem getRanges_single_nonempty {d : Doc} {sel : Selection} (h : ¬ sel.isEmpty) :
    getRanges d [sel] = multiSelRanges d [sel] := by
  show (if sel.isEmpty then
      (if d.length < 2 then (Except.error .insufficientLines : Except AlignError (List Range))
        else .ok [wholeRange d])
    else multiSelRanges d [sel])
    = multiSelRanges d [sel]
  rw [if_neg h]

theorem getRanges_ok_shape {d : Doc} {sels : List Selection} {ranges : List Range}
    (hok : getRanges d sels = .ok ranges) :
    (2 ≤ d.length ∧ ranges = [wholeRange d] ∧ scanTargets d sels = List.range d.length
      ∧ (∃ sel, sels = [sel] ∧ sel.isEmpty)
      ∧ ∀ d' : Doc, getRanges d' sels
          = if d'.length < 2 then .error .insufficientLines else .ok [wholeRange d'])
    ∨ (claimLinesAux (claimedSeq sels) [] = .ok (claimedSeq sels)
        ∧ 2 ≤ (claimedSeq sels).length ∧ ranges = selRangesOf d sels
        ∧ scanTargets d sels = claimedSeq sels
        ∧ ∀ d' : Doc, getRanges d' sels = multiSelRanges d' sels) := by
  cases sels with
  | nil =>
      right
      obtain ⟨hcl, hlen, hr⟩ := multiSelRanges_ok ((getRanges_nil d) ▸ hok)
      exact ⟨hcl, hlen, hr, rfl, fun d' => rfl⟩
  | cons sel rest =>
      cases rest with
      | nil =>
          by_cases hempty : sel.isEmpty
          · left
            rw [getRanges_single_empty hempty] at hok
            by_cases hlt : d.length < 2
            · rw [if_pos hlt] at hok; exact absurd hok (by simp)
            · rw [if_neg hlt] at hok
              refine ⟨by omega, (Except.ok.inj hok).symm, ?_, ⟨sel, rfl, hempty⟩,
                fun d' => getRanges_single_empty hempty⟩
              show (if sel.isEmpty then List.range d.length else claimedSeq [sel])
                = List.range d.length
              rw [if_pos hempty]
          · right
            rw [getRanges_single_nonempty hempty] at hok
            obtain ⟨hcl, hlen, hr⟩ := multiSelRanges_ok hok
            refine ⟨hcl, hlen, hr, ?_, fun d' => getRanges_single_nonempty hempty⟩
            show (if sel.isEmpty then List.range d.length else claimedSeq [sel])
              = claimedSeq [sel]
            rw [if_neg hempty]
      | cons b rest2 =>
          right
          obtain ⟨hcl, hlen, hr⟩ := multiSelRanges_ok hok
          exact ⟨hcl, hlen, hr, rfl, fun d' => rfl⟩

theorem getRanges_scannedLines_nodup {d : Doc} {sels : List Selection} {ranges : List Range}
    (hok : getRanges d sels = .ok ranges) : (scannedLines ranges).Nodup := by
  rcases getRanges_ok_shape hok with ⟨h2, hr, _⟩ | ⟨hcl, _, hr, _⟩
  · subst hr
    rw [scannedLines_wholeRange h2]
    exact List.nodup_range d.length
  · subst hr
    rw [scannedLines_selRangesOf]
    exact claimedSeq_nodup hcl

/-! ### Claim C8 -/

/-- C8: when the pattern source is absent (`undefined`) and the input
prompt is cancelled, the command surfaces no error message and applies
no edit to the document. -/
theorem c8_cancel_is_silent (compile : String → Except String Regex) (d : Doc)
    (sels : List Selection) : runCommand compile none .undef d sels = (d, []) := rfl

/-! ### Claim C5 -/

/-- C5: if the scan records no match the pipeline fails with
`NoMatchesFound`, and if it records exactly one match it fails with
`SingleMatchFound`; in both cases the document is left unchanged. -/
theorem c5_too_few_matches (r : Regex) (d : Doc) (sels : List Selection)
    (ranges : List Range) (hok : getRanges d sels = .ok ranges) :
    (scanRanges r d ranges = [] →
        alignCustomPattern r d sels = .error .noMatchesFound ∧ runAlign r d sels = d)
    ∧ ((scanRanges r d ranges).length = 1 →
        alignCustomPattern r d sels = .error .singleMatchFound ∧ runAlign r d sels = d) := by
  constructor
  · intro hscan
    have h1 : alignCustomPattern r d sels = .error .noMatchesFound := by
      unfold alignCustomPattern
      rw [hok]
      simp [hscan]
    exact ⟨h1, by unfold runAlign; rw [h1]⟩
  · intro hscan
    have h1 : alignCustomPattern r d sels = .error .singleMatchFound := by
      unfold alignCustomPattern
      rw [hok]
      simp [hscan]
    exact ⟨h1, by unfold runAlign; rw [h1]⟩

/-- Witness for C5 on the spec's scenario: three one-letter lines, a
bare cursor, and the assignment pattern produce `NoMatchesFound` and
leave the document unchanged. -/
theorem c5_witness :
    alignCustomPattern assignmentRegex [['a'], ['b'], ['c']] [⟨⟨0, 0⟩, ⟨0, 0⟩⟩]
        = .error .noMatchesFound
      ∧ runAlign assignmentRegex [['a'], ['b'], ['c']] [⟨⟨0, 0⟩, ⟨0, 0⟩⟩]
        = [['a'], ['b'], ['c']] :=
  (c5_too_few_matches assignmentRegex [['a'], ['b'], ['c']] [⟨⟨0, 0⟩, ⟨0, 0⟩⟩]
    [wholeRange [['a'], ['b'], ['c']]] (by rfl)).1 (by rfl)

/-! ### Claim C6 -/

/-- C6: with a single bare cursor, a document with fewer than two lines
fails with `InsufficientLines` without an edit; otherwise the whole
document becomes one range and exactly lines `0 .. lastLine` are
scanned. -/
theorem c6_whole_document_mode (r : Regex) (d : Doc) (s : Selection) (hs : s.isEmpty) :
    (d.length < 2 →
        alignCustomPattern r d [s] = .error .insufficientLines ∧ runAlign r d [s] = d)
    ∧ (2 ≤ d.length →
        getRanges d [s] = .ok [wholeRange d]
          ∧ scannedLines [wholeRange d] = List.range d.length) := by
  constructor
  · intro hlt
    have h1 : alignCustomPattern r d [s] = .error .insufficientLines := by
      unfold alignCustomPattern
      rw [getRanges_single_empty hs, if_pos hlt]
    exact ⟨h1, by unfold runAlign; rw [h1]⟩
  · intro h2
    refine ⟨?_, scannedLines_wholeRange h2⟩
    rw [getRanges_single_empty hs, if_neg (by omega)]

/-- Witness for C6: a one-line document fails with `InsufficientLines`
unchanged, and a two-line document is scanned on lines `[0, 1]`. -/
theorem c6_witness :
    (alignCustomPattern assignmentRegex [['a']] [⟨⟨0, 0⟩, ⟨0, 0⟩⟩]
        = .error .insufficientLines
      ∧ runAlign assignmentRegex [['a']] [⟨⟨0, 0⟩, ⟨0, 0⟩⟩] = [['a']])
    ∧ (getRanges [['a'], ['b']] [⟨⟨0, 0⟩, ⟨0, 0⟩⟩] = .ok [wholeRange [['a'], ['b']]]
      ∧ scannedLines [wholeRange [['a'], ['b']]] = List.range 2) :=
  ⟨(c6_whole_document_mode assignmentRegex [['a']] ⟨⟨0, 0⟩, ⟨0, 0⟩⟩ (by rfl)).1 (by decide),
    (c6_whole_document_mode assignmentRegex [['a'], ['b']] ⟨⟨0, 0⟩, ⟨0, 0⟩⟩ (by rfl)).2
      (by decide)⟩

/-! ### Claim C7 -/

/-- C7: when the claimed line indices contain a duplicate, the
normalizer fails with `DuplicateLineSelection` naming the first
duplicate's 1-based line number, and no edit is applied. -/
theorem c7_duplicate_line (r : Regex) (d : Doc) (sels : List Selection) (l : Nat)
    (hdup : firstDup (claimedSeq sels) = some l) :
    getRanges d sels = .error (.duplicateLineSelection (l + 1))
      ∧ runAlign r d sels = d := by
  have hmulti : ∀ sels' : List Selection, firstDup (claimedSeq sels') = some l →
      multiSelRanges d sels' = .error (.duplicateLineSelection (l + 1)) := by
    intro sels' h
    unfold firstDup at h
    rw [multiSelRanges_eq, claimLinesAux_eq_firstDup, h]
  have hget : getRanges d sels = .error (.duplicateLineSelection (l + 1)) := by
    match sels with
    | [] => simp [claimedSeq, firstDup, firstDupAux] at hdup
    | [sel] =>
        by_cases hempty : sel.isEmpty
        · exfalso
          have hone : claimedSeq [sel] = [sel.start.line] := by
            simp [claimedSeq, selLines, hempty]
          rw [hone] at hdup
          simp [firstDup, firstDupAux] at hdup
        · rw [getRanges_single_nonempty hempty]
          exact hmulti [sel] hdup
    | a :: b :: rest =>
        rw [getRanges_two]
        exact hmulti (a :: b :: rest) hdup
  refine ⟨hget, ?_⟩
  unfold runAlign alignCustomPattern
  rw [hget]

/-- Witness for C7 on the spec's scenario: two cursors on line 5 fail
with `DuplicateLineSelection` naming line 6, with the document kept. -/
theorem c7_witness :
    getRanges [['a'], ['b'], ['c'], ['d'], ['e'], ['f'], ['g']]
        [⟨⟨5, 0⟩, ⟨5, 0⟩⟩, ⟨⟨5, 3⟩, ⟨5, 3⟩⟩]
      = .error (.duplicateLineSelection 6)
    ∧ runAlign assignmentRegex [['a'], ['b'], ['c'], ['d'], ['e'], ['f'], ['g']]
        [⟨⟨5, 0⟩, ⟨5, 0⟩⟩, ⟨⟨5, 3⟩, ⟨5, 3⟩⟩]
      = [['a'], ['b'], ['c'], ['d'], ['e'], ['f'], ['g']] :=
  c7_duplicate_line assignmentRegex [['a'], ['b'], ['c'], ['d'], ['e'], ['f'], ['g']]
    [⟨⟨5, 0⟩, ⟨5, 0⟩⟩, ⟨⟨5, 3⟩, ⟨5, 3⟩⟩] 5 (by rfl)

/-! ### Claim C3 -/

/-- C3: with the recorded positions nonempty and `M` the maximum
recorded column, every position at column `C < M` yields exactly one
planned insertion of `M − C ≥ 1` spaces at its own spot, every planned
insertion has count `M − C ≥ 1` for its column, and the position at
column `M` yields no insertion (every planned insertion sits strictly
left of `M`). -/
theorem c3_plan_insertion_counts (ps : List MatchPos) (hne : ps ≠ []) :
    (∀ p ∈ ps, p.character ≤ (rightmostChar ps).toNat)
    ∧ (∃ p ∈ ps, p.character = (rightmostChar ps).toNat)
    ∧ (∀ p ∈ ps, p.character < (rightmostChar ps).toNat →
        (⟨p.line, p.character, (rightmostChar ps).toNat - p.character⟩ : Insertion)
            ∈ planEdits ps
          ∧ 1 ≤ (rightmostChar ps).toNat - p.character)
    ∧ (∀ e ∈ planEdits ps, e.character < (rightmostChar ps).toNat
        ∧ e.count = (rightmostChar ps).toNat - e.character) := by
  have h0 := rightmostChar_nonneg hne
  refine ⟨?_, ?_, ?_, ?_⟩
  · intro p hp
    have := rightmostChar_ge hp
    omega
  · obtain ⟨p, hp, hval⟩ := rightmostChar_mem hne
    exact ⟨p, hp, by omega⟩
  · intro p hp hlt
    exact ⟨mem_planEdits_of_lt hp hlt, by omega⟩
  · intro e he
    obtain ⟨p, hp, _, _, hlt, hcount, _⟩ := planEdits_mem_spec he
    exact ⟨hlt, hcount⟩

/-- Witness for C3 on the spec's scenario columns 1 and 2: the max is
2, the entry at column 1 plans one space, nothing targets column 2. -/
theorem c3_witness :
    (∀ p ∈ [(⟨0, 1⟩ : MatchPos), ⟨1, 2⟩], p.character
        ≤ (rightmostChar [(⟨0, 1⟩ : MatchPos), ⟨1, 2⟩]).toNat)
    ∧ (∃ p ∈ [(⟨0, 1⟩ : MatchPos), ⟨1, 2⟩], p.character
        = (rightmostChar [(⟨0, 1⟩ : MatchPos), ⟨1, 2⟩]).toNat)
    ∧ (∀ p ∈ [(⟨0, 1⟩ : MatchPos), ⟨1, 2⟩],
        p.character < (rightmostChar [(⟨0, 1⟩ : MatchPos), ⟨1, 2⟩]).toNat →
        (⟨p.line, p.character,
            (rightmostChar [(⟨0, 1⟩ : MatchPos), ⟨1, 2⟩]).toNat - p.character⟩ : Insertion)
            ∈ planEdits [(⟨0, 1⟩ : MatchPos), ⟨1, 2⟩]
          ∧ 1 ≤ (rightmostChar [(⟨0, 1⟩ : MatchPos), ⟨1, 2⟩]).toNat - p.character)
    ∧ (∀ e ∈ planEdits [(⟨0, 1⟩ : MatchPos), ⟨1, 2⟩],
        e.character < (rightmostChar [(⟨0, 1⟩ : MatchPos), ⟨1, 2⟩]).toNat
          ∧ e.count = (rightmostChar [(⟨0, 1⟩ : MatchPos), ⟨1, 2⟩]).toNat - e.character) :=
  c3_plan_insertion_counts [⟨0, 1⟩, ⟨1, 2⟩] (by simp)

/-! ### Claim C4 -/

/-- Modelled from the claim's wording: the substring of a line
permitted by a range's column bounds — the exact slice on a
single-line range, the suffix from the start column on the range's
first line, the prefix up to the end column on its last line, the full
line otherwise — paired with the column at which that substring starts
(the range's start column when the substring starts there, 0 for the
other lines). -/
def permittedSubstringSpec (d : Doc) (rg : Range) (line : Nat) : List Char × Nat :=
  if rg.start.line = rg.stop.line then
    (((lineTextAt d line).take rg.stop.character).drop rg.start.character,
      rg.start.character)
  else if line = rg.start.line then
    ((lineTextAt d line).drop rg.start.character, rg.start.character)
  else if line = rg.stop.line then
    ((lineTextAt d line).take rg.stop.character, 0)
  else (lineTextAt d line, 0)

/-- C4: the per-line scan matches exactly on the permitted substring
and re-bases the match offset by the substring's starting column, and
a scanned range records a position for a line exactly when that line's
scan finds a match — lines without a match are skipped, not errors. -/
theorem c4_slice_and_rebase (r : Regex) (d : Doc) (rg : Range) (line : Nat)
    (hcol : rg.start.line = rg.stop.line → rg.start.character ≤ rg.stop.character) :
    scanLine r d rg line
        = (exec r (permittedSubstringSpec d rg line).1).map
            (· + (permittedSubstringSpec d rg line).2)
    ∧ ∀ c : Nat, (⟨line, c⟩ : MatchPos) ∈ scanRanges r d [rg]
        ↔ (line ∈ linesOf rg ∧ scanLine r d rg line = some c) := by
  constructor
  · by_cases h1 : rg.start.line = rg.stop.line
    · have hjs : jsSubstring (lineTextAt d line) rg.start.character rg.stop.character
          = ((lineTextAt d line).take rg.stop.character).drop rg.start.character := by
        unfold jsSubstring
        rw [if_pos (hcol h1)]
      simp only [scanLine, permittedSubstringSpec, if_pos h1, hjs]
    · by_cases h2 : line = rg.start.line
      · simp only [scanLine, permittedSubstringSpec, if_neg h1, if_pos h2]
      · by_cases h3 : line = rg.stop.line
        · simp only [scanLine, permittedSubstringSpec, if_neg h1, if_neg h2, if_pos h3]
        · simp only [scanLine, permittedSubstringSpec, if_neg h1, if_neg h2, if_neg h3]
  · intro c
    have hsingle : scanRanges r d [rg] = (linesOf rg).filterMap fun l2 =>
        (scanLine r d rg l2).map fun c2 => (⟨l2, c2⟩ : MatchPos) := by
      rw [scanRanges_cons]
      show _ ++ scanRanges r d [] = _
      simp [scanRanges]
    rw [hsingle, List.mem_filterMap]
    constructor
    · rintro ⟨a, ha, hmap⟩
      cases hs : scanLine r d rg a <;> rw [hs] at hmap
      · exact absurd hmap (by simp)
      · have heq := Option.some.inj hmap
        injection heq with ha' hc'
        subst ha'
        subst hc'
        exact ⟨ha, hs⟩
    · rintro ⟨hline, hscan⟩
      refine ⟨line, hline, ?_⟩
      rw [hscan]
      rfl

/-- Witness for C4 on a single-line range with valid column bounds. -/
theorem c4_witness :
    scanLine fallbackCommentRegex [['x', 'x', '/', '*', 'y', 'y']]
        (⟨⟨0, 1⟩, ⟨0, 5⟩⟩ : Range) 0
        = (exec fallbackCommentRegex
            (permittedSubstringSpec [['x', 'x', '/', '*', 'y', 'y']]
              (⟨⟨0, 1⟩, ⟨0, 5⟩⟩ : Range) 0).1).map
            (· + (permittedSubstringSpec [['x', 'x', '/', '*', 'y', 'y']]
              (⟨⟨0, 1⟩, ⟨0, 5⟩⟩ : Range) 0).2)
    ∧ ∀ c : Nat, (⟨0, c⟩ : MatchPos)
        ∈ scanRanges fallbackCommentRegex [['x', 'x', '/', '*', 'y', 'y']]
            [(⟨⟨0, 1⟩, ⟨0, 5⟩⟩ : Range)]
      ↔ (0 ∈ linesOf (⟨⟨0, 1⟩, ⟨0, 5⟩⟩ : Range)
          ∧ scanLine fallbackCommentRegex [['x', 'x', '/', '*', 'y', 'y']]
              (⟨⟨0, 1⟩, ⟨0, 5⟩⟩ : Range) 0 = some c) :=
  c4_slice_and_rebase fallbackCommentRegex [['x', 'x', '/', '*', 'y', 'y']]
    (⟨⟨0, 1⟩, ⟨0, 5⟩⟩ : Range) 0 (by decide)

/-! ### Claim C10 -/

/-- C10: the compiled pattern carries no cross-line state — `exec`
always reports the leftmost match of the given text, and the scan of a
line depends only on that line's text, not on any other line of the
document. -/
theorem c10_stateless_leftmost (r : Regex) (d d₂ : Doc) (rg : Range) (line : Nat)
    (cs : List Char) (i : Nat) :
    (exec r cs = some i → matchesAt r cs i ∧ ∀ j < i, ¬ matchesAt r cs j)
    ∧ (lineTextAt d line = lineTextAt d₂ line →
        scanLine r d rg line = scanLine r d₂ rg line) := by
  constructor
  · intro h
    exact exec_eq_some_iff.mp h
  · intro h
    unfold scanLine
    rw [h]

/-- Witness for C10: a leftmost match at offset 2, and equal scans on
two different documents agreeing on the scanned line. -/
theorem c10_witness :
    (matchesAt fallbackCommentRegex ['a', ' ', '/', '*', ' ', 'b'] 2
      ∧ ∀ j < 2, ¬ matchesAt fallbackCommentRegex ['a', ' ', '/', '*', ' ', 'b'] j)
    ∧ scanLine fallbackCommentRegex [['a']] (⟨⟨0, 0⟩, ⟨0, 1⟩⟩ : Range) 0
        = scanLine fallbackCommentRegex [['a'], ['b']] (⟨⟨0, 0⟩, ⟨0, 1⟩⟩ : Range) 0 :=
  ⟨(c10_stateless_leftmost fallbackCommentRegex [['a']] [['a'], ['b']]
      (⟨⟨0, 0⟩, ⟨0, 1⟩⟩ : Range) 0 ['a', ' ', '/', '*', ' ', 'b'] 2).1 (by rfl),
    (c10_stateless_leftmost fallbackCommentRegex [['a']] [['a'], ['b']]
      (⟨⟨0, 0⟩, ⟨0, 1⟩⟩ : Range) 0 ['a', ' ', '/', '*', ' ', 'b'] 2).2 (by rfl)⟩

/-! ### Claim C9 -/

/-- C9: with a successful normalization, every recorded match position
sits on a distinct line inside the scanned line set, the planned
insertions target distinct lines, and applying them in any order gives
the same document. -/
theorem c9_independent_insertions (r : Regex) (d : Doc) (sels : List Selection)
    (ranges : List Range) (hok : getRanges d sels = .ok ranges) :
    ((scanRanges r d ranges).map MatchPos.line).Nodup
    ∧ (∀ p ∈ scanRanges r d ranges, p.line ∈ scannedLines ranges)
    ∧ ((planEdits (scanRanges r d ranges)).map Insertion.line).Nodup
    ∧ ∀ ins2 : List Insertion, ins2.Perm (planEdits (scanRanges r d ranges)) →
        applyInsertions d ins2 = applyInsertions d (planEdits (scanRanges r d ranges)) := by
  have hscn := getRanges_scannedLines_nodup hok
  have hsub := scanRanges_lines_sublist r d ranges
  have hnd1 : ((scanRanges r d ranges).map MatchPos.line).Nodup :=
    List.Nodup.sublist hsub hscn
  have hnd2 : ((planEdits (scanRanges r d ranges)).map Insertion.line).Nodup :=
    List.Nodup.sublist (planEdits_lines_sublist _) hnd1
  refine ⟨hnd1, ?_, hnd2, ?_⟩
  · intro p hp
    exact hsub.subset (List.mem_map_of_mem MatchPos.line hp)
  · intro ins2 hperm
    refine applyInsertions_perm hperm ?_
    exact ((hperm.map Insertion.line).nodup_iff).mpr hnd2

/-- Witness for C9 on the spec's scenario document with a bare cursor. -/
theorem c9_witness :
    ((scanRanges assignmentRegex
        [['x', ' ', '=', ' ', '1'], ['y', 'y', ' ', '=', ' ', '2']]
        [wholeRange [['x', ' ', '=', ' ', '1'], ['y', 'y', ' ', '=', ' ', '2']]]).map
          MatchPos.line).Nodup
    ∧ (∀ p ∈ scanRanges assignmentRegex
          [['x', ' ', '=', ' ', '1'], ['y', 'y', ' ', '=', ' ', '2']]
          [wholeRange [['x', ' ', '=', ' ', '1'], ['y', 'y', ' ', '=', ' ', '2']]],
        p.line ∈ scannedLines
          [wholeRange [['x', ' ', '=', ' ', '1'], ['y', 'y', ' ', '=', ' ', '2']]])
    ∧ ((planEdits (scanRanges assignmentRegex
          [['x', ' ', '=', ' ', '1'], ['y', 'y', ' ', '=', ' ', '2']]
          [wholeRange [['x', ' ', '=', ' ', '1'], ['y', 'y', ' ', '=', ' ', '2']]])).map
            Insertion.line).Nodup
    ∧ ∀ ins2 : List Insertion, ins2.Perm (planEdits (scanRanges assignmentRegex
          [['x', ' ', '=', ' ', '1'], ['y', 'y', ' ', '=', ' ', '2']]
          [wholeRange [['x', ' ', '=', ' ', '1'], ['y', 'y', ' ', '=', ' ', '2']]])) →
        applyInsertions [['x', ' ', '=', ' ', '1'], ['y', 'y', ' ', '=', ' ', '2']] ins2
          = applyInsertions [['x', ' ', '=', ' ', '1'], ['y', 'y', ' ', '=', ' ', '2']]
              (planEdits (scanRanges assignmentRegex
                [['x', ' ', '=', ' ', '1'], ['y', 'y', ' ', '=', ' ', '2']]
                [wholeRange [['x', ' ', '=', ' ', '1'], ['y', 'y', ' ', '=', ' ', '2']]])) :=
  c9_independent_insertions assignmentRegex
    [['x', ' ', '=', ' ', '1'], ['y', 'y', ' ', '=', ' ', '2']] [⟨⟨0, 0⟩, ⟨0, 0⟩⟩]
    [wholeRange [['x', ' ', '=', ' ', '1'], ['y', 'y', ' ', '=', ' ', '2']]] (by rfl)

/-! ### Claim C1 -/

theorem lookup_eq_none {a : String} :
    ∀ ps : List (String × String), (∀ pr ∈ ps, pr.1 ≠ a) → List.lookup a ps = none := by
  intro ps
  induction ps with
  | nil => intro _; rfl
  | cons p rest ih =>
      intro h
      obtain ⟨k, v⟩ := p
      have hne : k ≠ a := h (k, v) (List.mem_cons_self _ _)
      have hbeq : (a == k) = false := beq_eq_false_iff_ne.mpr (Ne.symm hne)
      simp only [List.lookup, hbeq]
      exact ih fun pr hpr => h pr (List.mem_cons_of_mem _ hpr)

/-- C1 as stated is false: the fallback pattern string is `/[/*]`,
which requires a `/` followed by `/` or `*`.  The line `a * b` contains
a bare `*` at index 2 (its first `/`-or-`*` character), yet the
compiled fallback pattern finds no match on it at all. -/
theorem c1_counterexample :
    commentPattern "zig" = "/[/*]"
    ∧ (['a', ' ', '*', ' ', 'b'][2]? = some '*')
    ∧ (∀ i : Nat, i < 2 → ¬ (['a', ' ', '*', ' ', 'b'][i]? = some '*'
        ∨ ['a', ' ', '*', ' ', 'b'][i]? = some '/'))
    ∧ exec fallbackCommentRegex ['a', ' ', '*', ' ', 'b'] = none :=
  ⟨by decide, by rfl, by decide, by rfl⟩

/-- C1 (amended): an unknown language id resolves to the fallback
pattern string `/[/*]`, whose compiled form matches exactly at the
leftmost position holding a `/` immediately followed by `/` or `*`
(so `//` or `/*`), and the lookup itself never fails. -/
theorem c1_fallback_comment_lookup (languageId : String)
    (h : ∀ pr ∈ COMMENT_PATTERNS, pr.1 ≠ languageId) :
    commentPattern languageId = "/[/*]"
    ∧ ∀ (cs : List Char) (i : Nat),
        exec fallbackCommentRegex cs = some i
          ↔ fallbackHit cs i ∧ ∀ j < i, ¬ fallbackHit cs j := by
  constructor
  · unfold commentPattern
    rw [lookup_eq_none COMMENT_PATTERNS h]
    rfl
  · intro cs i
    rw [exec_eq_some_iff]
    constructor
    · rintro ⟨h1, h2⟩
      exact ⟨matchesAt_fallback.mp h1,
        fun j hj hfb => h2 j hj (matchesAt_fallback.mpr hfb)⟩
    · rintro ⟨h1, h2⟩
      exact ⟨matchesAt_fallback.mpr h1,
        fun j hj hma => h2 j hj (matchesAt_fallback.mp hma)⟩

/-- Witness for the amended C1 at the unknown language id `zig`. -/
theorem c1_witness :
    commentPattern "zig" = "/[/*]"
    ∧ ∀ (cs : List Char) (i : Nat),
        exec fallbackCommentRegex cs = some i
          ↔ fallbackHit cs i ∧ ∀ j < i, ¬ fallbackHit cs j :=
  c1_fallback_comment_lookup "zig" (by decide)

/-! ### Claim C2 -/

theorem alignCustomPattern_ok {r : Regex} {d : Doc} {sels : List Selection}
    {ranges : List Range} (hget : getRanges d sels = .ok ranges) :
    alignCustomPattern r d sels =
      if (scanRanges r d ranges).length = 0 then .error .noMatchesFound
      else if (scanRanges r d ranges).length = 1 then .error .singleMatchFound
      else .ok (planEdits (scanRanges r d ranges)) := by
  unfold alignCustomPattern
  rw [hget]

theorem alignCustomPattern_err {r : Regex} {d : Doc} {sels : List Selection}
    {e : AlignError} (hget : getRanges d sels = .error e) :
    alignCustomPattern r d sels = .error e := by
  unfold alignCustomPattern
  rw [hget]

/-- Common core of the amended C2: if the first pass over the line set
`T` produced the insertions `ins`, the pad of every matched line again
matches first at the target column (the stability hypothesis), and the
second pass scans the same `T` on the padded document, then the second
pass succeeds planning no insertion at all. -/
theorem realign_aux {r : Regex} {d : Doc} {sels : List Selection} {ins : List Insertion}
    {T : List Nat}
    (hTnodup : T.Nodup)
    (hTlt : ∀ l2 ∈ T, l2 < d.length)
    (hins : ins = planEdits (fullScan r d T))
    (hlen2 : 2 ≤ (fullScan r d T).length)
    (hstable : ∀ p ∈ fullScan r d T,
        exec r (insertAt (lineTextAt d p.line) p.character
            ((rightmostChar (fullScan r d T)).toNat - p.character))
          = some (rightmostChar (fullScan r d T)).toNat)
    {ranges₂ : List Range}
    (hget₂ : getRanges (applyInsertions d ins) sels = .ok ranges₂)
    (hpos₂ : scanRanges r (applyInsertions d ins) ranges₂
        = fullScan r (applyInsertions d ins) T) :
    alignCustomPattern r (applyInsertions d ins) sels = .ok [] := by
  set P : List MatchPos := fullScan r d T with hPdef
  have hPne : P ≠ [] := by
    intro hnil
    rw [hnil] at hlen2
    simp at hlen2
  have hM0 := rightmostChar_nonneg hPne
  have hPnodup : (P.map MatchPos.line).Nodup :=
    List.Nodup.sublist (fullScan_lines_sublist r d T) hTnodup
  have hInsNodup : (ins.map Insertion.line).Nodup := by
    rw [hins]
    exact List.Nodup.sublist (planEdits_lines_sublist P) hPnodup
  have hkey : ∀ l2 ∈ T, exec r (lineTextAt (applyInsertions d ins) l2)
      = (exec r (lineTextAt d l2)).map fun _ => (rightmostChar P).toNat := by
    intro l2 hl2
    cases hexec : exec r (lineTextAt d l2) with
    | none =>
        have hnoins : ∀ i ∈ ins, i.line ≠ l2 := by
          intro i hi heq
          rw [hins] at hi
          obtain ⟨p, hp, hline, _, _, _, _⟩ := planEdits_mem_spec hi
          have hpl : p.line = l2 := by rw [← hline, heq]
          have hpm := (mem_fullScan_iff.mp hp).2
          rw [hpl, hexec] at hpm
          exact absurd hpm (by simp)
        rw [lineTextAt_applyInsertions_ne ins d hnoins, hexec]
        rfl
    | some c =>
        have hpmem : (⟨l2, c⟩ : MatchPos) ∈ P :=
          mem_fullScan_iff.mpr ⟨hl2, hexec⟩
        have hcle : (c : Int) ≤ rightmostChar P := rightmostChar_ge hpmem
        have hstab : exec r (insertAt (lineTextAt d l2) c
              ((rightmostChar P).toNat - c)) = some (rightmostChar P).toNat :=
          hstable ⟨l2, c⟩ hpmem
        by_cases hcM : c < (rightmostChar P).toNat
        · have hinsp : (⟨l2, c, (rightmostChar P).toNat - c⟩ : Insertion) ∈ ins := by
            rw [hins]
            exact mem_planEdits_of_lt hpmem hcM
          have hline2 : lineTextAt (applyInsertions d ins) l2
              = insertAt (lineTextAt d l2) c ((rightmostChar P).toNat - c) :=
            lineTextAt_applyInsertions_mem ins d ⟨l2, c, (rightmostChar P).toNat - c⟩
              hInsNodup hinsp (hTlt l2 hl2)
          rw [hline2, hstab]
          rfl
        · have hceq : c = (rightmostChar P).toNat := by omega
          have hnoins : ∀ i ∈ ins, i.line ≠ l2 := by
            intro i hi heq
            rw [hins] at hi
            obtain ⟨p, hp, hline, hchar, hlt2, _, _⟩ := planEdits_mem_spec hi
            have hpl : p.line = (⟨l2, c⟩ : MatchPos).line := by
              show p.line = l2
              rw [← hline, heq]
            have hpp : p = ⟨l2, c⟩ := List.inj_on_of_nodup_map hPnodup hp hpmem hpl
            rw [hpp] at hchar
            have hic : i.character = c := hchar
            omega
          rw [lineTextAt_applyInsertions_ne ins d hnoins, hexec, hceq]
          rfl
  have hmap : fullScan r (applyInsertions d ins) T
      = P.map fun p => ⟨p.line, (rightmostChar P).toNat⟩ :=
    fullScan_map_const T hkey
  rw [alignCustomPattern_ok hget₂, hpos₂, hmap]
  have hlenmap : (P.map fun p =>
      (⟨p.line, (rightmostChar P).toNat⟩ : MatchPos)).length = P.length :=
    List.length_map _ _
  rw [if_neg (by rw [hlenmap]; omega), if_neg (by rw [hlenmap]; omega),
    planEdits_const_nil hPne]

/-- C2 as stated is false: with the custom pattern `"  "` (two spaces)
on the lines `ab␣␣x` and `abcd␣␣x` under a single bare cursor, the
first pass succeeds and inserts two spaces at column 2 of line 0, but
the inserted pad creates an earlier match of the pattern, so a second
pass over the same selection again plans a nonempty set of insertions
rather than zero. -/
theorem c2_counterexample :
    alignCustomPattern twoSpacesRegex
        [['a', 'b', ' ', ' ', 'x'], ['a', 'b', 'c', 'd', ' ', ' ', 'x']]
        [⟨⟨0, 0⟩, ⟨0, 0⟩⟩] = .ok [⟨0, 2, 2⟩]
    ∧ alignCustomPattern twoSpacesRegex
        (applyInsertions [['a', 'b', ' ', ' ', 'x'], ['a', 'b', 'c', 'd', ' ', ' ', 'x']]
          [⟨0, 2, 2⟩])
        [⟨⟨0, 0⟩, ⟨0, 0⟩⟩] = .ok [⟨0, 2, 2⟩]
    ∧ ([(⟨0, 2, 2⟩ : Insertion)] : List Insertion) ≠ [] :=
  ⟨by rfl, by rfl, by simp⟩

/-- C2 (amended): when every selection is a bare cursor (the
whole-document case included), cursors sit inside the document, one
alignment pass succeeds with insertions `ins`, and padding a matched
line never creates an earlier match (each padded line's first match is
at the target column — false in general, see the two-space pattern),
then running the alignment again on the padded document with the same
selections succeeds and plans zero insertions. -/
theorem c2_realign_plans_nothing (r : Regex) (d : Doc) (sels : List Selection)
    (ins : List Insertion)
    (hempty : ∀ s ∈ sels, s.isEmpty)
    (hlt : ∀ s ∈ sels, s.start.line < d.length)
    (hok : alignCustomPattern r d sels = .ok ins)
    (hstable : ∀ p ∈ fullScan r d (scanTargets d sels),
        exec r (insertAt (lineTextAt d p.line) p.character
            ((rightmostChar (fullScan r d (scanTargets d sels))).toNat - p.character))
          = some (rightmostChar (fullScan r d (scanTargets d sels))).toNat) :
    alignCustomPattern r (applyInsertions d ins) sels = .ok [] := by
  cases hget : getRanges d sels with
  | error e =>
      rw [alignCustomPattern_err hget] at hok
      exact absurd hok (by simp)
  | ok ranges =>
      rw [alignCustomPattern_ok hget] at hok
      by_cases h0 : (scanRanges r d ranges).length = 0
      · rw [if_pos h0] at hok
        exact absurd hok (by simp)
      rw [if_neg h0] at hok
      by_cases h1 : (scanRanges r d ranges).length = 1
      · rw [if_pos h1] at hok
        exact absurd hok (by simp)
      rw [if_neg h1] at hok
      have hins : ins = planEdits (scanRanges r d ranges) := (Except.ok.inj hok).symm
      have hlen2 : 2 ≤ (scanRanges r d ranges).length := by omega
      have hdlen : (applyInsertions d ins).length = d.length :=
        length_applyInsertions ins d
      rcases getRanges_ok_shape hget with
        ⟨h2, hr, hT, ⟨sel, hsels, hsemp⟩, hget'⟩ | ⟨hcl, hclen, hr, hT, hget'⟩
      · subst hsels
        subst hr
        have hpos1 : scanRanges r d [wholeRange d] = fullScan r d (scanTargets d [sel]) := by
          rw [scanRanges_wholeRange h2, hT]
        have hins' : ins = planEdits (fullScan r d (scanTargets d [sel])) := by
          rw [hins, hpos1]
        have hlen2' : 2 ≤ (fullScan r d (scanTargets d [sel])).length := by
          rw [← hpos1]
          exact hlen2
        have hTnodup : (scanTargets d [sel]).Nodup := by
          rw [hT]
          exact List.nodup_range d.length
        have hTlt : ∀ l2 ∈ scanTargets d [sel], l2 < d.length := by
          intro l2 hl2
          rw [hT] at hl2
          exact List.mem_range.mp hl2
        have hget₂ : getRanges (applyInsertions d ins) [sel]
            = .ok [wholeRange (applyInsertions d ins)] := by
          rw [hget' (applyInsertions d ins), if_neg (by omega)]
        have hpos₂ : scanRanges r (applyInsertions d ins)
            [wholeRange (applyInsertions d ins)]
            = fullScan r (applyInsertions d ins) (scanTargets d [sel]) := by
          rw [scanRanges_wholeRange (by omega), hT, hdlen]
        exact realign_aux hTnodup hTlt hins' hlen2' hstable hget₂ hpos₂
      · subst hr
        have hpos1 : scanRanges r d (selRangesOf d sels)
            = fullScan r d (scanTargets d sels) := by
          rw [scanRanges_allEmpty sels hempty, hT]
        have hins' : ins = planEdits (fullScan r d (scanTargets d sels)) := by
          rw [hins, hpos1]
        have hlen2' : 2 ≤ (fullScan r d (scanTargets d sels)).length := by
          rw [← hpos1]
          exact hlen2
        have hTnodup : (scanTargets d sels).Nodup := by
          rw [hT]
          exact claimedSeq_nodup hcl
        have hTlt : ∀ l2 ∈ scanTargets d sels, l2 < d.length := by
          intro l2 hl2
          rw [hT] at hl2
          obtain ⟨s, hs, hsl⟩ := List.mem_flatMap.mp hl2
          have hse : s.isEmpty := hempty s hs
          rw [selLines, if_pos hse] at hsl
          have hl2eq : l2 = s.start.line := by simpa using hsl
          rw [hl2eq]
          exact hlt s hs
        have hget₂ : getRanges (applyInsertions d ins) sels
            = .ok (selRangesOf (applyInsertions d ins) sels) := by
          rw [hget' (applyInsertions d ins), multiSelRanges_eq, hcl]
          show (if (claimedSeq sels).length < 2 then
              (Except.error .insufficientSelection : Except AlignError (List Range))
            else .ok (selRangesOf (applyInsertions d ins) sels))
            = .ok (selRangesOf (applyInsertions d ins) sels)
          rw [if_neg (by omega)]
        have hpos₂ : scanRanges r (applyInsertions d ins)
            (selRangesOf (applyInsertions d ins) sels)
            = fullScan r (applyInsertions d ins) (scanTargets d sels) := by
          rw [scanRanges_allEmpty sels hempty, hT]
        exact realign_aux hTnodup hTlt hins' hlen2' hstable hget₂ hpos₂

/-- Witness for the amended C2 on the spec's scenario lines, where the
assignment pattern's padded lines keep their first match at column 2:
the second pass plans zero insertions. -/
theorem c2_witness :
    alignCustomPattern assignmentRegex
        (applyInsertions [['x', ' ', '=', ' ', '1'], ['y', 'y', ' ', '=', ' ', '2']]
          [⟨0, 1, 1⟩])
        [⟨⟨0, 0⟩, ⟨0, 0⟩⟩] = .ok [] :=
  c2_realign_plans_nothing assignmentRegex
    [['x', ' ', '=', ' ', '1'], ['y', 'y', ' ', '=', ' ', '2']] [⟨⟨0, 0⟩, ⟨0, 0⟩⟩]
    [⟨0, 1, 1⟩] (by decide) (by decide) (by rfl) (by decide)

end AlignAnything
